import Mathlib

/-!
Verification development for the bounded level-synchronous crawler in
`src/app.js` (`crawlWebsite`, lines 55-104).  The crawler is embedded
shallowly: the network (axios + cheerio anchor extraction) is an oracle
`net : String → Option (List String)` mapping a URL to the raw `href`
attribute values of a successfully fetched page (`none` models a failed
fetch: network error, timeout or bad status, all of which land in the
`.catch` handler).  The JavaScript `Set` of visited URLs is modelled as an
insertion-ordered duplicate-free list.  The inner chunking loop
(`for (let i = 0; i < currentLevel.length; i += concurrencyLimit)`) is
modelled with explicit fuel so that its non-termination behaviour for
`concurrencyLimit = 0` is expressible; `none` means the fuel budget was
exhausted, i.e. the loop did not finish within the given number of
iterations.
-/

/-! ### URL model

Modelled from the spec: `src/app.js` resolves and serialises URLs with
Node's WHATWG `new URL(href, base)` / `.href` / `.hostname`, which is not
part of this repository's sources.  Following spec §4.1 ("resolves `href`
relative to `baseUrl` per standard URL-resolution rules (scheme, authority,
path, query preserved ...)"), the model below implements hierarchical
`scheme://host[:port]/path[?query][#fragment]` URLs with standard relative
resolution (absolute, protocol-relative `//`, path-absolute `/`, query-only
`?`, fragment-only `#`, empty, and relative-path references with
dot-segment removal).  Simplifications relative to the full WHATWG spec:
no percent-encoding, no case normalisation, no default-port elision, no
userinfo, and non-hierarchical schemes such as `mailto:` are not special
cased.  Malformed input yields `none` ("Invalid" in spec §4.1). -/

def notColon (c : Char) : Bool := c != ':'

def notSlashQH (c : Char) : Bool := c != '/' && c != '?' && c != '#'

def notQH (c : Char) : Bool := c != '?' && c != '#'

def notHash (c : Char) : Bool := c != '#'

structure URLRec where
  scheme : List Char
  host : List Char
  port : Option (List Char)
  path : List (List Char)
  query : Option (List Char)
  fragment : Option (List Char)
deriving DecidableEq, Repr

/-- Split a character list into its `/`-separated segments; the inverse of
`joinSlash` on slash-free segments. -/
def splitSlash : List Char → List (List Char)
  | [] => [[]]
  | c :: r =>
    if c = '/' then [] :: splitSlash r
    else
      match splitSlash r with
      | [] => [[c]]
      | s :: ss => (c :: s) :: ss

/-- Join path segments with `/` separators. -/
def joinSlash : List (List Char) → List Char
  | [] => []
  | [s] => s
  | s :: ss => s ++ '/' :: joinSlash ss

/-- Standard dot-segment removal (RFC 3986 §5.2.4 as performed by the WHATWG
path parser), on segment lists; `out` is the output stack (reversed). -/
def removeDots (out : List (List Char)) : List (List Char) → List (List Char)
  | [] => out.reverse
  | seg :: rest =>
    if seg = ['.'] then
      (if rest = [] then out.reverse ++ [[]] else removeDots out rest)
    else if seg = ['.', '.'] then
      (if rest = [] then out.tail.reverse ++ [[]] else removeDots out.tail rest)
    else removeDots (seg :: out) rest

/-- Parse `host[:port]` from an authority component. -/
def parseHostPort (a : List Char) : Option (List Char × Option (List Char)) :=
  if a.takeWhile notColon = [] then none
  else
    match a.dropWhile notColon with
    | [] => some (a.takeWhile notColon, none)
    | _ :: ds =>
      if ds = [] then some (a.takeWhile notColon, none)
      else if ds.all Char.isDigit then some (a.takeWhile notColon, some ds) else none

/-- Parse the `path`, `query` and `fragment` components from what follows the
authority (a suffix beginning with `/`, `?`, `#`, or empty). -/
def parseSegsPart (r : List Char) : List (List Char) × List Char :=
  match r with
  | c :: r0 =>
    if c = '/' then (splitSlash (r0.takeWhile notQH), r0.dropWhile notQH) else ([[]], c :: r0)
  | [] => ([[]], [])

def parseQueryPart (r1 : List Char) : Option (List Char) × List Char :=
  match r1 with
  | c :: r0 =>
    if c = '?' then (some (r0.takeWhile notHash), r0.dropWhile notHash) else (none, c :: r0)
  | [] => (none, [])

def parseFragPart (segs : List (List Char)) (q : Option (List Char)) (r2 : List Char) :
    Option (List (List Char) × Option (List Char) × Option (List Char)) :=
  match r2 with
  | c :: r0 => if c = '#' then some (segs, q, some r0) else none
  | [] => some (segs, q, none)

def parseFragLoose (r2 : List Char) : Option (List Char) :=
  match r2 with
  | _ :: f => some f
  | [] => none

def parsePQF (r : List Char) : Option (List (List Char) × Option (List Char) × Option (List Char)) :=
  parseFragPart (parseSegsPart r).1 (parseQueryPart (parseSegsPart r).2).1
    (parseQueryPart (parseSegsPart r).2).2

/-- Parse everything after `scheme://`. -/
def parseAfterScheme (sch r : List Char) : Option URLRec :=
  match parseHostPort (r.takeWhile notSlashQH) with
  | none => none
  | some (h, p) =>
    match parsePQF (r.dropWhile notSlashQH) with
    | none => none
    | some (segs, q, fr) => some ⟨sch, h, p, removeDots [] segs, q, fr⟩

/-- Parse an absolute hierarchical URL `scheme://...`. -/
def parseAbsL (s : List Char) : Option URLRec :=
  match s.dropWhile notColon with
  | c1 :: c2 :: c3 :: r =>
    if c1 = ':' ∧ c2 = '/' ∧ c3 = '/' ∧ s.takeWhile notColon ≠ [] ∧
        (s.takeWhile notColon).all Char.isAlpha then
      parseAfterScheme (s.takeWhile notColon) r
    else none
  | _ => none

def serPort : Option (List Char) → List Char
  | none => []
  | some ds => ':' :: ds

def serQuery : Option (List Char) → List Char
  | none => []
  | some q => '?' :: q

def serFrag : Option (List Char) → List Char
  | none => []
  | some f => '#' :: f

/-- Serialise a parsed URL back to its canonical string form (the model of
the WHATWG `.href` getter). -/
def serializeL (u : URLRec) : List Char :=
  u.scheme ++ ':' :: '/' :: '/' ::
    (u.host ++ serPort u.port ++ '/' :: joinSlash u.path ++ serQuery u.query ++ serFrag u.fragment)

/-- Resolve a path-absolute reference `/{r}` against base `b`. -/
def resolvePathAbs (b : URLRec) (r : List Char) : Option URLRec :=
  match parsePQF ('/' :: r) with
  | none => none
  | some (segs, q, fr) => some ⟨b.scheme, b.host, b.port, removeDots [] segs, q, fr⟩

/-- Resolve a relative-path reference against base `b`: merge with the base
path (drop its last segment), then remove dot segments. -/
def resolveRelPath (b : URLRec) (href : List Char) : URLRec :=
  let pathPart := href.takeWhile notQH
  let rest1 := href.dropWhile notQH
  ⟨b.scheme, b.host, b.port, removeDots [] (b.path.dropLast ++ splitSlash pathPart),
    (parseQueryPart rest1).1, parseFragLoose (parseQueryPart rest1).2⟩

/-- Resolve `href` against `base` (the model of `new URL(href, base)`). -/
def resolveL (href base : List Char) : Option URLRec :=
  match parseAbsL href with
  | some u => some u
  | none =>
    match parseAbsL base with
    | none => none
    | some b =>
      match href with
      | [] => some { b with fragment := none }
      | c :: r =>
        if c = '/' then
          match r with
          | c2 :: r2 =>
            if c2 = '/' then parseAfterScheme b.scheme r2
            else resolvePathAbs b r
          | [] => resolvePathAbs b []
        else if c = '?' then
          match r.dropWhile notHash with
          | [] => some { b with query := some (r.takeWhile notHash), fragment := none }
          | _ :: f => some { b with query := some (r.takeWhile notHash), fragment := some f }
        else if c = '#' then some { b with fragment := some r }
        else some (resolveRelPath b (c :: r))

/-- Model of `new URL(href, url).href` at `src/app.js:74`: the absolute
serialised form of `href` resolved against `url`, or `none` when invalid
(the code's `catch (e) { return null; }`). -/
def normalizeURL (href base : String) : Option String :=
  (resolveL href.data base.data).map (fun u => String.mk (serializeL u))

/-- Model of `new URL(s).hostname` at `src/app.js:81`. -/
def hostname (s : String) : Option String :=
  (parseAbsL s.data).map (fun u => String.mk u.host)

/-! ### Crawler model

Shallow embedding of `crawlWebsite` (`src/app.js:55-104`). -/

/-- Model of `visited.add(x)` on the insertion-ordered JavaScript `Set`. -/
def sInsert (v : List String) (x : String) : List String :=
  if x ∈ v then v else v ++ [x]

/-- Model of `links.filter(link => { const sameDomain = (new URL(link).hostname
=== new URL(startUrl).hostname); return sameDomain && !visited.has(link); })`
(`src/app.js:80-83`).  `none` models an exception thrown by `new URL` inside
the filter callback (it propagates to the promise's `.catch`). -/
def sameOriginNew (su : String) (v : List String) : List String → Option (List String)
  | [] => some []
  | l :: ls =>
    match hostname l, hostname su, sameOriginNew su v ls with
    | some h1, some h2, some r => some (if h1 = h2 ∧ l ∉ v then l :: r else r)
    | _, _, _ => none

/-- Net new links contributed by fetching `u`, given visited set `v`: the
body of the per-URL promise in `src/app.js:67-90`.  A failed fetch
(`net u = none`) or an exception inside the `then` handler contributes `[]`
via the `.catch` handler. -/
def pageNewLinks (net : String → Option (List String)) (su u : String) (v : List String) : List String :=
  match net u with
  | none => []
  | some hrefs =>
    match sameOriginNew su v (hrefs.filterMap fun h => normalizeURL h u) with
    | none => []
    | some nl => nl

/-- Run the fulfilment handlers of one chunk's promises in the given
completion order, threading the visited set exactly as the handlers mutate
it (`newLinks.forEach(link => visited.add(link))` runs inside each handler,
`src/app.js:84`).  Returns each handler's `newLinks` in the given order
together with the final visited set. -/
def runChunk (net : String → Option (List String)) (su : String) :
    List String → List String → List (List String) × List String
  | [], v => ([], v)
  | u :: us, v =>
    let nl := pageNewLinks net su u v
    let v1 := nl.foldl sInsert v
    let (rs, v2) := runChunk net su us v1
    (nl :: rs, v2)

/-- The inner chunking loop of `crawlWebsite` (`src/app.js:65-97`):
`for (let i = 0; i < currentLevel.length; i += concurrencyLimit)`, with the
chunk `currentLevel.slice(i, i + concurrencyLimit)`, the `Promise.all` join,
the `nextLevel.push(...links)` accumulation, and the
`if (visited.size >= maxPages) break` check.  `fuel` bounds the number of
loop iterations; `none` means the loop failed to finish within that bound
(so `(∀ fuel, ... = none)` says the loop never terminates).  Also
accumulates the list of URLs actually dispatched to the fetcher. -/
def batchLoop (net : String → Option (List String)) (su : String) (cl mp : Nat) :
    Nat → Nat → List String → List String → List String → List String →
    Option (List String × List String × List String)
  | 0, _, _, _, _, _ => none
  | fuel + 1, i, level, v, nl, ftch =>
    if i < level.length then
      if mp ≤ (runChunk net su ((level.drop i).take cl) v).2.length then
        some ((runChunk net su ((level.drop i).take cl) v).2,
          nl ++ (runChunk net su ((level.drop i).take cl) v).1.flatten,
          ftch ++ (level.drop i).take cl)
      else
        batchLoop net su cl mp fuel (i + cl) level
          ((runChunk net su ((level.drop i).take cl) v).2)
          (nl ++ (runChunk net su ((level.drop i).take cl) v).1.flatten)
          (ftch ++ (level.drop i).take cl)
    else some (v, nl, ftch)

/-- The outer depth loop of `crawlWebsite` (`src/app.js:61-101`):
`for (let depth = 0; depth < maxDepth; depth++)`, with the end-of-level
`if (visited.size >= maxPages || currentLevel.length === 0) break`.
Returns the visited set and the per-level lists of URLs dispatched to the
fetcher. -/
def crawlLoop (net : String → Option (List String)) (su : String) (cl mp : Nat) :
    Nat → List String → List String → List (List String) →
    Option (List String × List (List String))
  | 0, _, v, tr => some (v, tr)
  | d + 1, level, v, tr =>
    match batchLoop net su cl mp (level.length + 1) 0 level v [] [] with
    | none => none
    | some (v1, nl, ftch) =>
      if mp ≤ v1.length ∨ nl = [] then some (v1, tr ++ [ftch])
      else crawlLoop net su cl mp d nl v1 (tr ++ [ftch])

/-- Model of `crawlWebsite(startUrl, maxDepth, concurrencyLimit, maxPages)`
(`src/app.js:55-104`): `visited = new Set([startUrl])`,
`currentLevel = [startUrl]`, then the depth loop.  The result pairs the
final visited set (in insertion order) with the trace of URLs fetched per
level; `none` means the inner chunking loop failed to terminate within its
fuel budget (which, as proved below, cannot happen when
`concurrencyLimit ≥ 1`). -/
def crawlWebsite (net : String → Option (List String)) (startUrl : String)
    (maxDepth : Nat := 2) (concurrencyLimit : Nat := 10) (maxPages : Nat := 100) :
    Option (List String × List (List String)) :=
  crawlLoop net startUrl concurrencyLimit maxPages maxDepth [startUrl] [startUrl] []

/-- Chunk processing as described by the spec's join-point rule, for
comparison with `runChunk`.  Modelled from the spec: "Candidates are NOT
inserted into VisitedSet until their owning batch's results are all
computed, to make within-batch dedup against the *prior* state
deterministic" — every URL of the chunk is filtered against the visited set
as it stood before the batch started. -/
def chunkResultsPriorFilter (net : String → Option (List String)) (su : String)
    (chunk : List String) (v : List String) : List (List String) :=
  chunk.map (fun u => pageNewLinks net su u v)

def noSlash (c : Char) : Bool := c != '/'

/-- Well-formedness invariants satisfied by every URL the parser or resolver
produces; exactly what is needed for the serialised form to parse back to
the same record. -/
def URLRec.wf (u : URLRec) : Prop :=
  u.scheme ≠ [] ∧ u.scheme.all Char.isAlpha = true ∧
  u.host ≠ [] ∧ u.host.all notSlashQH = true ∧ u.host.all notColon = true ∧
  (∀ ds, u.port = some ds → ds ≠ [] ∧ ds.all Char.isDigit = true) ∧
  u.path ≠ [] ∧
  (∀ s ∈ u.path, s.all notQH = true ∧ s.all noSlash = true ∧ s ≠ ['.'] ∧ s ≠ ['.', '.']) ∧
  (∀ q, u.query = some q → q.all notHash = true)

/-- Oracle for concrete scenarios: the seed's page links once to `/p1`;
every other fetch fails. -/
def oracleOneLink : String → Option (List String) := fun u =>
  if u = "http://a.com/" then some ["/p1"] else none

/-- Oracle where two distinct pages of one batch both link to `/x`;
every other fetch fails. -/
def oracleSharedLink : String → Option (List String) := fun u =>
  if u = "http://a.com/1" then some ["/x"]
  else if u = "http://a.com/2" then some ["/x"] else none

/-- Oracle whose seed page contains `n` duplicate occurrences of the link
`/p1`; the `/p1` page has no links; every other fetch fails. -/
def oracleDupLinks (n : Nat) : String → Option (List String) := fun u =>
  if u = "http://a.com/" then some (List.replicate n "/p1")
  else if u = "http://a.com/p1" then some [] else none

/-- Oracle whose seed page links to a same-host page and to a cross-host
page; every other fetch fails. -/
def oracleCrossHost : String → Option (List String) := fun u =>
  if u = "http://a.com/" then some ["/p1", "http://b.com/x"] else none

/-! ### List and character helper lemmas -/

theorem allImp {α : Type} {p q : α → Bool} {l : List α} (h : l.all p = true)
    (hpq : ∀ a, p a = true → q a = true) : l.all q = true := by
  induction l with
  | nil => rfl
  | cons a t ih =>
    simp only [List.all_cons, Bool.and_eq_true] at h ⊢
    exact ⟨hpq a h.1, ih h.2⟩

theorem takeWhileAll {α : Type} {p : α → Bool} {l : List α} (h : l.all p = true) :
    l.takeWhile p = l := by
  induction l with
  | nil => rfl
  | cons a t ih =>
    simp only [List.all_cons, Bool.and_eq_true] at h
    simp [List.takeWhile_cons, h.1, ih h.2]

theorem dropWhileAll {α : Type} {p : α → Bool} {l : List α} (h : l.all p = true) :
    l.dropWhile p = [] := by
  induction l with
  | nil => rfl
  | cons a t ih =>
    simp only [List.all_cons, Bool.and_eq_true] at h
    simp [List.dropWhile_cons, h.1, ih h.2]

theorem takeWhileAppend {α : Type} {p : α → Bool} {xs : List α} {y : α} {ys : List α}
    (hxs : xs.all p = true) (hy : p y = false) : (xs ++ y :: ys).takeWhile p = xs := by
  induction xs with
  | nil => simp [List.takeWhile_cons, hy]
  | cons a t ih =>
    simp only [List.all_cons, Bool.and_eq_true] at hxs
    simp [List.takeWhile_cons, hxs.1, ih hxs.2]

theorem dropWhileAppend {α : Type} {p : α → Bool} {xs : List α} {y : α} {ys : List α}
    (hxs : xs.all p = true) (hy : p y = false) : (xs ++ y :: ys).dropWhile p = y :: ys := by
  induction xs with
  | nil => simp [List.dropWhile_cons, hy]
  | cons a t ih =>
    simp only [List.all_cons, Bool.and_eq_true] at hxs
    simp [List.dropWhile_cons, hxs.1, ih hxs.2]

theorem memTakeWhile {α : Type} {p : α → Bool} {l : List α} {x : α}
    (h : x ∈ l.takeWhile p) : p x = true ∧ x ∈ l := by
  induction l with
  | nil => simp at h
  | cons a t ih =>
    by_cases hpa : p a = true
    · simp only [List.takeWhile_cons, hpa, if_true] at h
      rcases List.mem_cons.1 h with h | h
      · exact ⟨h ▸ hpa, h ▸ List.mem_cons_self a t⟩
      · exact ⟨(ih h).1, List.mem_cons_of_mem a (ih h).2⟩
    · simp only [List.takeWhile_cons, hpa] at h
      simp at h

theorem memDropLast {α : Type} {l : List α} {x : α} (h : x ∈ l.dropLast) : x ∈ l :=
  List.dropLast_subset l h

theorem alphaNotColon {c : Char} (h : c.isAlpha = true) : notColon c = true := by
  unfold notColon
  by_cases hc : c = ':'
  · subst hc; exact absurd h (by decide)
  · simp [bne_iff_ne, hc]

theorem digitNotSlashQH {c : Char} (h : c.isDigit = true) : notSlashQH c = true := by
  unfold notSlashQH
  by_cases h1 : c = '/'
  · subst h1; exact absurd h (by decide)
  by_cases h2 : c = '?'
  · subst h2; exact absurd h (by decide)
  by_cases h3 : c = '#'
  · subst h3; exact absurd h (by decide)
  simp [bne_iff_ne, h1, h2, h3]

/-! ### splitSlash, joinSlash and removeDots lemmas -/

theorem splitSlashNeNil (l : List Char) : splitSlash l ≠ [] := by
  cases l with
  | nil => simp [splitSlash]
  | cons c r =>
    simp only [splitSlash]
    by_cases hc : c = '/'
    · simp [hc]
    · simp only [hc, if_false]
      cases splitSlash r <;> simp

theorem splitSlashNoSlash {l s : List Char} (h : s ∈ splitSlash l) : s.all noSlash = true := by
  induction l generalizing s with
  | nil =>
    simp [splitSlash] at h
    simp [h]
  | cons c r ih =>
    simp only [splitSlash] at h
    by_cases hc : c = '/'
    · simp only [hc, if_true] at h
      rcases List.mem_cons.1 h with h | h
      · simp [h]
      · exact ih h
    · simp only [hc, if_false] at h
      rcases hsr : splitSlash r with _ | ⟨s0, ss⟩
      · exact absurd hsr (splitSlashNeNil r)
      · rw [hsr] at h
        rcases List.mem_cons.1 h with h | h
        · subst h
          have h0 : s0 ∈ splitSlash r := by rw [hsr]; exact List.mem_cons_self _ _
          have := ih h0
          simp only [List.all_cons, Bool.and_eq_true]
          exact ⟨by simp [noSlash, bne_iff_ne, hc], this⟩
        · exact ih (by rw [hsr]; exact List.mem_cons_of_mem _ h)

theorem splitSlashChars {l s : List Char} (h : s ∈ splitSlash l) {c : Char} (hc : c ∈ s) :
    c ∈ l := by
  induction l generalizing s with
  | nil =>
    simp [splitSlash] at h
    subst h; simp at hc
  | cons a r ih =>
    simp only [splitSlash] at h
    by_cases ha : a = '/'
    · simp only [ha, if_true] at h
      rcases List.mem_cons.1 h with h | h
      · subst h; simp at hc
      · exact List.mem_cons_of_mem _ (ih h hc)
    · simp only [ha, if_false] at h
      rcases hsr : splitSlash r with _ | ⟨s0, ss⟩
      · exact absurd hsr (splitSlashNeNil r)
      · rw [hsr] at h
        rcases List.mem_cons.1 h with h | h
        · subst h
          rcases List.mem_cons.1 hc with hc | hc
          · exact hc ▸ List.mem_cons_self _ _
          · refine List.mem_cons_of_mem _ (ih ?_ hc)
            rw [hsr]; exact List.mem_cons_self _ _
        · exact List.mem_cons_of_mem _ (ih (by rw [hsr]; exact List.mem_cons_of_mem _ h) hc)

theorem splitSlashAllOf {l : List Char} {p : Char → Bool} (hl : l.all p = true) :
    ∀ s ∈ splitSlash l, s.all p = true := by
  intro s hs
  rw [List.all_eq_true] at hl ⊢
  exact fun c hc => hl c (splitSlashChars hs hc)

theorem splitSlashSelf {s : List Char} (h : s.all noSlash = true) : splitSlash s = [s] := by
  induction s with
  | nil => rfl
  | cons c r ih =>
    simp only [List.all_cons, Bool.and_eq_true] at h
    have hc : ¬ c = '/' := by simpa [noSlash, bne_iff_ne] using h.1
    simp [splitSlash, hc, ih h.2]

theorem splitSlashAppendSlash {s t : List Char} (h : s.all noSlash = true) :
    splitSlash (s ++ '/' :: t) = s :: splitSlash t := by
  induction s with
  | nil => simp [splitSlash]
  | cons c r ih =>
    simp only [List.all_cons, Bool.and_eq_true] at h
    have hc : ¬ c = '/' := by simpa [noSlash, bne_iff_ne] using h.1
    simp [splitSlash, hc, ih h.2]

theorem joinSlashConsCons (s s2 : List Char) (ss : List (List Char)) :
    joinSlash (s :: s2 :: ss) = s ++ '/' :: joinSlash (s2 :: ss) := rfl

theorem splitJoinSlash {segs : List (List Char)} (hne : segs ≠ [])
    (hs : ∀ s ∈ segs, s.all noSlash = true) : splitSlash (joinSlash segs) = segs := by
  induction segs with
  | nil => exact absurd rfl hne
  | cons s ss ih =>
    cases ss with
    | nil => simpa [joinSlash] using splitSlashSelf (hs s (List.mem_cons_self _ _))
    | cons s2 ss2 =>
      rw [joinSlashConsCons, splitSlashAppendSlash (hs s (List.mem_cons_self _ _))]
      rw [ih (List.cons_ne_nil _ _) (fun x hx => hs x (List.mem_cons_of_mem _ hx))]

theorem joinSlashAll {segs : List (List Char)} {p : Char → Bool}
    (hs : ∀ s ∈ segs, s.all p = true) (hsl : p '/' = true) :
    (joinSlash segs).all p = true := by
  induction segs with
  | nil => rfl
  | cons s ss ih =>
    cases ss with
    | nil => simpa [joinSlash] using hs s (List.mem_cons_self _ _)
    | cons s2 ss2 =>
      rw [joinSlashConsCons]
      simp only [List.all_append, List.all_cons, Bool.and_eq_true]
      exact ⟨hs s (List.mem_cons_self _ _), hsl,
        ih (fun x hx => hs x (List.mem_cons_of_mem _ hx))⟩

theorem removeDotsNoDots {l : List (List Char)} (out : List (List Char))
    (h : ∀ s ∈ l, s ≠ ['.'] ∧ s ≠ ['.', '.']) :
    removeDots out l = out.reverse ++ l := by
  induction l generalizing out with
  | nil => simp [removeDots]
  | cons seg rest ih =>
    have hseg := h seg (List.mem_cons_self _ _)
    rw [removeDots, if_neg hseg.1, if_neg hseg.2,
      ih (seg :: out) (fun s hs => h s (List.mem_cons_of_mem _ hs))]
    simp

theorem removeDotsNeNil {l out : List (List Char)} (h : out ≠ [] ∨ l ≠ []) :
    removeDots out l ≠ [] := by
  induction l generalizing out with
  | nil =>
    rcases h with h | h
    · simpa [removeDots] using h
    · exact absurd rfl h
  | cons seg rest ih =>
    rw [removeDots]
    by_cases h1 : seg = ['.']
    · rw [if_pos h1]
      cases rest with
      | nil => simp
      | cons a b =>
        rw [if_neg (by simp)]
        exact ih (Or.inr (by simp))
    · rw [if_neg h1]
      by_cases h2 : seg = ['.', '.']
      · rw [if_pos h2]
        cases rest with
        | nil => simp
        | cons a b =>
          rw [if_neg (by simp)]
          exact ih (Or.inr (by simp))
      · rw [if_neg h2]
        exact ih (Or.inl (by simp))

theorem removeDotsMem {P : List Char → Prop} {l out : List (List Char)}
    (hnil : P []) (hout : ∀ s ∈ out, P s)
    (hl : ∀ s ∈ l, s ≠ ['.'] → s ≠ ['.', '.'] → P s) :
    ∀ s ∈ removeDots out l, P s := by
  induction l generalizing out with
  | nil =>
    intro s hs
    rw [removeDots] at hs
    exact hout s (List.mem_reverse.1 hs)
  | cons seg rest ih =>
    intro s hs
    rw [removeDots] at hs
    by_cases h1 : seg = ['.']
    · rw [if_pos h1] at hs
      by_cases hr : rest = []
      · rw [if_pos hr] at hs
        rcases List.mem_append.1 hs with hs | hs
        · exact hout s (List.mem_reverse.1 hs)
        · simp at hs; subst hs; exact hnil
      · rw [if_neg hr] at hs
        exact ih hout (fun x hx => hl x (List.mem_cons_of_mem _ hx)) s hs
    · rw [if_neg h1] at hs
      by_cases h2 : seg = ['.', '.']
      · rw [if_pos h2] at hs
        by_cases hr : rest = []
        · rw [if_pos hr] at hs
          rcases List.mem_append.1 hs with hs | hs
          · exact hout s (List.mem_of_mem_tail (List.mem_reverse.1 hs))
          · simp at hs; subst hs; exact hnil
        · rw [if_neg hr] at hs
          refine ih ?_ (fun x hx => hl x (List.mem_cons_of_mem _ hx)) s hs
          intro x hx
          exact hout x (List.mem_of_mem_tail hx)
      · rw [if_neg h2] at hs
        refine ih ?_ (fun x hx => hl x (List.mem_cons_of_mem _ hx)) s hs
        intro x hx
        rcases List.mem_cons.1 hx with hx | hx
        · exact hx ▸ hl seg (List.mem_cons_self _ _) h1 h2
        · exact hout x hx

/-! ### Parse/serialise roundtrip -/

theorem parseHostPortSer {h : List Char} {p : Option (List Char)}
    (hne : h ≠ []) (hcol : h.all notColon = true)
    (hp : ∀ ds, p = some ds → ds ≠ [] ∧ ds.all Char.isDigit = true) :
    parseHostPort (h ++ serPort p) = some (h, p) := by
  cases p with
  | none =>
    simp only [serPort, List.append_nil, parseHostPort]
    rw [takeWhileAll hcol, dropWhileAll hcol]
    simp [hne]
  | some ds =>
    obtain ⟨hds, hdig⟩ := hp ds rfl
    simp only [serPort, parseHostPort]
    rw [takeWhileAppend hcol (by decide), dropWhileAppend hcol (by decide)]
    simp [hne, hds, hdig]

theorem parseSegsPartSlash (r0 : List Char) :
    parseSegsPart ('/' :: r0) = (splitSlash (r0.takeWhile notQH), r0.dropWhile notQH) := rfl

theorem parseQueryPartQ (r0 : List Char) :
    parseQueryPart ('?' :: r0) = (some (r0.takeWhile notHash), r0.dropWhile notHash) := rfl

theorem parseQueryPartNil : parseQueryPart [] = (none, []) := rfl

theorem parseQueryPartHash (r0 : List Char) :
    parseQueryPart ('#' :: r0) = (none, '#' :: r0) := rfl

theorem parseFragPartNil (segs : List (List Char)) (q : Option (List Char)) :
    parseFragPart segs q [] = some (segs, q, none) := rfl

theorem parseFragPartHash (segs : List (List Char)) (q : Option (List Char)) (f0 : List Char) :
    parseFragPart segs q ('#' :: f0) = some (segs, q, some f0) := rfl

theorem parsePQFSer {path : List (List Char)} {q f : Option (List Char)}
    (hpne : path ≠ [])
    (hsegs : ∀ s ∈ path, s.all notQH = true ∧ s.all noSlash = true)
    (hq : ∀ q0, q = some q0 → q0.all notHash = true) :
    parsePQF ('/' :: (joinSlash path ++ serQuery q ++ serFrag f)) = some (path, q, f) := by
  have hjAll : (joinSlash path).all notQH = true :=
    joinSlashAll (fun s hs => (hsegs s hs).1) (by decide)
  have hsplit : splitSlash (joinSlash path) = path :=
    splitJoinSlash hpne (fun s hs => (hsegs s hs).2)
  cases q with
  | none =>
    cases f with
    | none =>
      unfold parsePQF
      simp only [serQuery, serFrag, List.append_nil]
      rw [parseSegsPartSlash, takeWhileAll hjAll, dropWhileAll hjAll, hsplit]
      simp [parseQueryPartNil, parseFragPartNil]
    | some f0 =>
      unfold parsePQF
      simp only [serQuery, serFrag, List.append_nil]
      rw [parseSegsPartSlash, takeWhileAppend hjAll (by decide),
        dropWhileAppend hjAll (by decide), hsplit]
      simp [parseQueryPartHash, parseFragPartHash]
  | some q0 =>
    have hq0 : q0.all notHash = true := hq q0 rfl
    cases f with
    | none =>
      unfold parsePQF
      simp only [serQuery, serFrag, List.append_nil]
      rw [parseSegsPartSlash, takeWhileAppend hjAll (by decide),
        dropWhileAppend hjAll (by decide), hsplit]
      simp only [parseQueryPartQ]
      rw [takeWhileAll hq0, dropWhileAll hq0]
      simp [parseFragPartNil]
    | some f0 =>
      unfold parsePQF
      simp only [serQuery, serFrag]
      rw [List.append_assoc, List.cons_append]
      rw [parseSegsPartSlash, takeWhileAppend hjAll (by decide),
        dropWhileAppend hjAll (by decide), hsplit]
      simp only [parseQueryPartQ]
      rw [takeWhileAppend hq0 (by decide), dropWhileAppend hq0 (by decide)]
      simp [parseFragPartHash]

theorem serPortAll {p : Option (List Char)}
    (hp : ∀ ds, p = some ds → ds ≠ [] ∧ ds.all Char.isDigit = true) :
    (serPort p).all notSlashQH = true := by
  cases p with
  | none => rfl
  | some ds =>
    simp only [serPort, List.all_cons, Bool.and_eq_true]
    exact ⟨by decide, allImp (hp ds rfl).2 (fun c => digitNotSlashQH)⟩

theorem parseAfterSchemeSer {u : URLRec} (hwf : u.wf) :
    parseAfterScheme u.scheme
      ((u.host ++ serPort u.port) ++
        '/' :: (joinSlash u.path ++ serQuery u.query ++ serFrag u.fragment)) = some u := by
  obtain ⟨hs1, hs2, hh1, hh2, hh3, hp, hpa1, hpa2, hq⟩ := hwf
  have hauth : (u.host ++ serPort u.port).all notSlashQH = true := by
    rw [List.all_append, Bool.and_eq_true]
    exact ⟨hh2, serPortAll hp⟩
  unfold parseAfterScheme
  rw [takeWhileAppend hauth (by decide), dropWhileAppend hauth (by decide)]
  rw [parseHostPortSer hh1 hh3 hp]
  rw [parsePQFSer hpa1 (fun s hs => ⟨(hpa2 s hs).1, (hpa2 s hs).2.1⟩) hq]
  simp [removeDotsNoDots [] (fun s hs => ⟨(hpa2 s hs).2.2.1, (hpa2 s hs).2.2.2⟩)]

theorem serializeLEq (u : URLRec) :
    serializeL u = u.scheme ++ ':' :: '/' :: '/' ::
      ((u.host ++ serPort u.port) ++
        '/' :: (joinSlash u.path ++ serQuery u.query ++ serFrag u.fragment)) := by
  unfold serializeL
  simp [List.append_assoc]

theorem parseSer {u : URLRec} (hwf : u.wf) : parseAbsL (serializeL u) = some u := by
  have hs1 := hwf.1
  have hs2 := hwf.2.1
  have hsCol : u.scheme.all notColon = true := allImp hs2 (fun c => alphaNotColon)
  rw [serializeLEq]
  unfold parseAbsL
  rw [takeWhileAppend hsCol (by decide), dropWhileAppend hsCol (by decide)]
  simp only [ne_eq, hs1, not_false_eq_true, hs2, and_self, and_true, true_and, if_pos]
  simpa [List.append_assoc] using parseAfterSchemeSer hwf

/-! ### Well-formedness of parser and resolver outputs -/

theorem parseHostPortWf {a h : List Char} {p : Option (List Char)}
    (ha : a.all notSlashQH = true) (hp : parseHostPort a = some (h, p)) :
    h ≠ [] ∧ h.all notSlashQH = true ∧ h.all notColon = true ∧
      (∀ ds, p = some ds → ds ≠ [] ∧ ds.all Char.isDigit = true) := by
  have hcol : (a.takeWhile notColon).all notColon = true := by
    rw [List.all_eq_true]
    exact fun c hc => (memTakeWhile hc).1
  have hsub : (a.takeWhile notColon).all notSlashQH = true := by
    rw [List.all_eq_true] at ha ⊢
    exact fun c hc => ha c (memTakeWhile hc).2
  unfold parseHostPort at hp
  split at hp
  · cases hp
  · next hnil =>
    split at hp
    · simp only [Option.some.injEq, Prod.mk.injEq] at hp
      obtain ⟨rfl, rfl⟩ := hp
      exact ⟨hnil, hsub, hcol, fun ds h0 => by cases h0⟩
    · split at hp
      · simp only [Option.some.injEq, Prod.mk.injEq] at hp
        obtain ⟨rfl, rfl⟩ := hp
        exact ⟨hnil, hsub, hcol, fun ds h0 => by cases h0⟩
      · next hds =>
        split at hp
        · next hdig =>
          simp only [Option.some.injEq, Prod.mk.injEq] at hp
          obtain ⟨rfl, rfl⟩ := hp
          exact ⟨hnil, hsub, hcol, fun ds0 h0 => by cases h0; exact ⟨hds, hdig⟩⟩
        · cases hp

theorem parseSegsPartProps (r : List Char) :
    (parseSegsPart r).1 ≠ [] ∧
      ∀ s ∈ (parseSegsPart r).1, s.all notQH = true ∧ s.all noSlash = true := by
  cases r with
  | nil =>
    refine ⟨by simp [parseSegsPart], ?_⟩
    intro s hs
    simp [parseSegsPart] at hs
    simp [hs]
  | cons c r0 =>
    by_cases hc : c = '/'
    · simp only [parseSegsPart, hc, if_true]
      refine ⟨splitSlashNeNil _, ?_⟩
      intro s hs
      refine ⟨?_, splitSlashNoSlash hs⟩
      refine splitSlashAllOf ?_ s hs
      rw [List.all_eq_true]
      exact fun x hx => (memTakeWhile hx).1
    · simp only [parseSegsPart, hc, if_false]
      refine ⟨by simp, ?_⟩
      intro s hs
      simp at hs
      simp [hs]

theorem parseQueryPartProps (r1 : List Char) :
    ∀ q0, (parseQueryPart r1).1 = some q0 → q0.all notHash = true := by
  intro q0 h
  cases r1 with
  | nil => cases h
  | cons c r0 =>
    by_cases hc : c = '?'
    · simp only [parseQueryPart, hc, if_true, Option.some.injEq] at h
      subst h
      rw [List.all_eq_true]
      exact fun x hx => (memTakeWhile hx).1
    · simp only [parseQueryPart, hc, if_false] at h
      cases h

theorem parseFragPartSome {segs0 segs : List (List Char)} {q0 q : Option (List Char)}
    {r2 : List Char} {f : Option (List Char)}
    (h : parseFragPart segs0 q0 r2 = some (segs, q, f)) : segs = segs0 ∧ q = q0 := by
  cases r2 with
  | nil =>
    simp only [parseFragPart, Option.some.injEq, Prod.mk.injEq] at h
    exact ⟨h.1.symm, h.2.1.symm⟩
  | cons c r0 =>
    by_cases hc : c = '#'
    · simp only [parseFragPart, hc, if_true, Option.some.injEq, Prod.mk.injEq] at h
      exact ⟨h.1.symm, h.2.1.symm⟩
    · simp only [parseFragPart, hc, if_false] at h
      cases h

theorem parsePQFWf {r : List Char} {segs : List (List Char)} {q f : Option (List Char)}
    (h : parsePQF r = some (segs, q, f)) :
    segs ≠ [] ∧ (∀ s ∈ segs, s.all notQH = true ∧ s.all noSlash = true) ∧
      (∀ q0, q = some q0 → q0.all notHash = true) := by
  unfold parsePQF at h
  obtain ⟨rfl, rfl⟩ := parseFragPartSome h
  refine ⟨(parseSegsPartProps r).1, (parseSegsPartProps r).2, ?_⟩
  exact parseQueryPartProps _

theorem parseAfterSchemeWf {sch r : List Char} {u : URLRec}
    (h1 : sch ≠ []) (h2 : sch.all Char.isAlpha = true)
    (h : parseAfterScheme sch r = some u) : u.wf := by
  unfold parseAfterScheme at h
  rcases hhp : parseHostPort (r.takeWhile notSlashQH) with _ | ⟨hh, pp⟩
  · rw [hhp] at h; cases h
  · rw [hhp] at h
    rcases hpqf : parsePQF (r.dropWhile notSlashQH) with _ | ⟨segs, q, fr⟩
    · rw [hpqf] at h; cases h
    · rw [hpqf] at h
      simp only [Option.some.injEq] at h
      subst h
      have hauth : (r.takeWhile notSlashQH).all notSlashQH = true := by
        rw [List.all_eq_true]
        exact fun c hc => (memTakeWhile hc).1
      obtain ⟨hhne, hhsub, hhcol, hport⟩ := parseHostPortWf hauth hhp
      obtain ⟨hsegne, hsegall, hqall⟩ := parsePQFWf hpqf
      refine ⟨h1, h2, hhne, hhsub, hhcol, hport, ?_, ?_, hqall⟩
      · exact removeDotsNeNil (Or.inr hsegne)
      · refine removeDotsMem ?_ ?_ ?_
        · exact ⟨rfl, rfl, by simp, by simp⟩
        · intro s hs; cases hs
        · intro s hs hd1 hd2
          exact ⟨(hsegall s hs).1, (hsegall s hs).2, hd1, hd2⟩

theorem parseAbsLWf {s : List Char} {u : URLRec} (h : parseAbsL s = some u) : u.wf := by
  unfold parseAbsL at h
  split at h
  · split at h
    · next hcond =>
      exact parseAfterSchemeWf hcond.2.2.2.1 hcond.2.2.2.2 h
    · cases h
  · cases h

theorem wfFragment {b : URLRec} (hb : b.wf) (f : Option (List Char)) :
    ({ b with fragment := f } : URLRec).wf := hb

theorem wfQueryFragment {b : URLRec} (hb : b.wf) {q : List Char}
    (hq : q.all notHash = true) (f : Option (List Char)) :
    ({ b with query := some q, fragment := f } : URLRec).wf := by
  obtain ⟨h1, h2, h3, h4, h5, h6, h7, h8, h9⟩ := hb
  exact ⟨h1, h2, h3, h4, h5, h6, h7, h8, fun q0 hq0 => by cases hq0; exact hq⟩

theorem resolvePathAbsWf {b : URLRec} (hb : b.wf) {r : List Char} {u : URLRec}
    (h : resolvePathAbs b r = some u) : u.wf := by
  unfold resolvePathAbs at h
  rcases hpqf : parsePQF ('/' :: r) with _ | ⟨segs, q, fr⟩
  · rw [hpqf] at h; cases h
  · rw [hpqf] at h
    simp only [Option.some.injEq] at h
    subst h
    obtain ⟨h1, h2, h3, h4, h5, h6, h7, h8, h9⟩ := hb
    obtain ⟨hsegne, hsegall, hqall⟩ := parsePQFWf hpqf
    refine ⟨h1, h2, h3, h4, h5, h6, ?_, ?_, hqall⟩
    · exact removeDotsNeNil (Or.inr hsegne)
    · refine removeDotsMem ?_ ?_ ?_
      · exact ⟨rfl, rfl, by simp, by simp⟩
      · intro s hs; cases hs
      · intro s hs hd1 hd2
        exact ⟨(hsegall s hs).1, (hsegall s hs).2, hd1, hd2⟩

theorem resolveRelPathWf {b : URLRec} (hb : b.wf) (href : List Char) :
    (resolveRelPath b href).wf := by
  obtain ⟨h1, h2, h3, h4, h5, h6, h7, h8, h9⟩ := hb
  refine ⟨h1, h2, h3, h4, h5, h6, ?_, ?_, ?_⟩
  · refine removeDotsNeNil (Or.inr ?_)
    intro hcontra
    rw [List.append_eq_nil] at hcontra
    exact splitSlashNeNil _ hcontra.2
  · refine removeDotsMem ?_ ?_ ?_
    · exact ⟨rfl, rfl, by simp, by simp⟩
    · intro s hs; cases hs
    · intro s hs hd1 hd2
      rcases List.mem_append.1 hs with hs | hs
    
      · exact ⟨(h8 s (memDropLast hs)).1, (h8 s (memDropLast hs)).2.1, hd1, hd2⟩
      · refine ⟨?_, splitSlashNoSlash hs, hd1, hd2⟩
        refine splitSlashAllOf ?_ s hs
        rw [List.all_eq_true]
        exact fun x hx => (memTakeWhile hx).1
  · exact fun q0 hq0 => parseQueryPartProps _ q0 hq0

theorem resolveLWf {h b : List Char} {u : URLRec} (hr : resolveL h b = some u) : u.wf := by
  unfold resolveL at hr
  split at hr
  · next u0 heq =>
    simp only [Option.some.injEq] at hr
    subst hr
    exact parseAbsLWf heq
  · next heq0 =>
    split at hr
    · cases hr
    · next bb heqb =>
      have hbwf : bb.wf := parseAbsLWf heqb
      split at hr
      · simp only [Option.some.injEq] at hr
        subst hr
        exact wfFragment hbwf none
      · split at hr
        · split at hr
          · split at hr
            · exact parseAfterSchemeWf hbwf.1 hbwf.2.1 hr
            · exact resolvePathAbsWf hbwf hr
          · exact resolvePathAbsWf hbwf hr
        · split at hr
          · split at hr
            · simp only [Option.some.injEq] at hr
              subst hr
              refine wfQueryFragment hbwf ?_ none
              rw [List.all_eq_true]
              exact fun x hx => (memTakeWhile hx).1
            · simp only [Option.some.injEq] at hr
              subst hr
              refine wfQueryFragment hbwf ?_ _
              rw [List.all_eq_true]
              exact fun x hx => (memTakeWhile hx).1
          · split at hr
            · simp only [Option.some.injEq] at hr
              subst hr
              exact wfFragment hbwf _
            · simp only [Option.some.injEq] at hr
              subst hr
              exact resolveRelPathWf hbwf _

theorem resolveSer {u : URLRec} (hwf : u.wf) (base : List Char) :
    resolveL (serializeL u) base = some u := by
  unfold resolveL
  rw [parseSer hwf]

/-! ### Visited-set and page-processing lemmas -/

theorem memSInsert {v : List String} {x y : String} :
    x ∈ sInsert v y ↔ x ∈ v ∨ x = y := by
  unfold sInsert
  by_cases hy : y ∈ v
  · rw [if_pos hy]
    constructor
    · exact Or.inl
    · rintro (h | rfl)
      · exact h
      · exact hy
  · rw [if_neg hy]
    simp

theorem lengthSInsert (v : List String) (y : String) :
    (sInsert v y).length ≤ v.length + 1 := by
  unfold sInsert
  split
  · exact Nat.le_succ _
  · simp

theorem memFoldlSInsert {l v : List String} {x : String} :
    x ∈ l.foldl sInsert v ↔ x ∈ v ∨ x ∈ l := by
  induction l generalizing v with
  | nil => simp
  | cons a t ih =>
    rw [List.foldl_cons, ih, memSInsert, List.mem_cons]
    tauto

theorem lengthFoldlSInsert (l v : List String) :
    (l.foldl sInsert v).length ≤ v.length + l.length := by
  induction l generalizing v with
  | nil => simp
  | cons a t ih =>
    rw [List.foldl_cons]
    have h1 := ih (sInsert v a)
    have h2 := lengthSInsert v a
    simp only [List.length_cons]
    omega

theorem sameOriginNewLen {su : String} {v ls out : List String}
    (h : sameOriginNew su v ls = some out) : out.length ≤ ls.length := by
  induction ls generalizing out with
  | nil =>
    simp only [sameOriginNew, Option.some.injEq] at h
    subst h
    simp
  | cons l t ih =>
    simp only [sameOriginNew] at h
    split at h
    · next r h1 h2 h3 =>
      simp only [Option.some.injEq] at h
      subst h
      have := ih h3
      split
      · simp only [List.length_cons]
        omega
      · simp only [List.length_cons]
        omega
    · cases h

theorem sameOriginNewMem {su : String} {v ls out : List String}
    (h : sameOriginNew su v ls = some out) {x : String} (hx : x ∈ out) :
    (∃ hst, hostname x = some hst ∧ hostname su = some hst) ∧ x ∈ ls ∧ x ∉ v := by
  induction ls generalizing out with
  | nil =>
    simp only [sameOriginNew, Option.some.injEq] at h
    subst h
    simp at hx
  | cons l t ih =>
    simp only [sameOriginNew] at h
    split at h
    · next h1 h2 h3 =>
      simp only [Option.some.injEq] at h
      subst h
      split at hx
      · next hcond =>
        rcases List.mem_cons.1 hx with rfl | hx
        · exact ⟨⟨_, h1, hcond.1 ▸ h2⟩, List.mem_cons_self _ _, hcond.2⟩
        · obtain ⟨hh, hm, hnv⟩ := ih h3 hx
          exact ⟨hh, List.mem_cons_of_mem _ hm, hnv⟩
      · obtain ⟨hh, hm, hnv⟩ := ih h3 hx
        exact ⟨hh, List.mem_cons_of_mem _ hm, hnv⟩
    · cases h

theorem sameOriginNewNoneIff (su : String) (v : List String) (ls : List String) :
    sameOriginNew su v ls = none ↔ sameOriginNew su [] ls = none := by
  induction ls with
  | nil => simp [sameOriginNew]
  | cons l t ih =>
    simp only [sameOriginNew]
    cases h1 : hostname l with
    | none => simp
    | some a =>
      cases h2 : hostname su with
      | none => simp
      | some b =>
        cases h3 : sameOriginNew su v t with
        | none =>
          have h4 : sameOriginNew su [] t = none := ih.1 h3
          simp [h4]
        | some r =>
          cases h4 : sameOriginNew su [] t with
          | none => exact absurd (ih.2 h4) (by simp [h3])
          | some r0 => simp

theorem sameOriginNewMemIff {su : String} {v ls o o0 : List String}
    (h : sameOriginNew su v ls = some o) (h0 : sameOriginNew su [] ls = some o0)
    {x : String} : x ∈ o ↔ x ∈ o0 ∧ x ∉ v := by
  induction ls generalizing o o0 with
  | nil =>
    simp only [sameOriginNew, Option.some.injEq] at h h0
    subst h
    subst h0
    simp
  | cons l t ih =>
    simp only [sameOriginNew] at h h0
    cases h1 : hostname l with
    | none => rw [h1] at h; cases h
    | some a =>
      rw [h1] at h h0
      cases h2 : hostname su with
      | none => rw [h2] at h; cases h
      | some b =>
        rw [h2] at h h0
        cases h3 : sameOriginNew su v t with
        | none => rw [h3] at h; cases h
        | some r =>
          rw [h3] at h
          cases h4 : sameOriginNew su [] t with
          | none => rw [h4] at h0; cases h0
          | some r0 =>
            rw [h4] at h0
            simp only [Option.some.injEq] at h h0
            subst h
            subst h0
            have hiff := ih h3 h4
            by_cases hab : a = b
            · have hpos0 : a = b ∧ l ∉ ([] : List String) := ⟨hab, by simp⟩
              by_cases hlv : l ∈ v
              · have hnegv : ¬(a = b ∧ l ∉ v) := fun hc => hc.2 hlv
                rw [if_neg hnegv, if_pos hpos0, hiff]
                simp only [List.mem_cons]
                constructor
                · rintro ⟨hx, hnv⟩
                  exact ⟨Or.inr hx, hnv⟩
                · rintro ⟨(rfl | hx), hnv⟩
                  · exact absurd hlv hnv
                  · exact ⟨hx, hnv⟩
              · have hposv : a = b ∧ l ∉ v := ⟨hab, hlv⟩
                rw [if_pos hposv, if_pos hpos0]
                simp only [List.mem_cons, hiff]
                constructor
                · rintro (rfl | ⟨hx, hnv⟩)
                  · exact ⟨Or.inl rfl, hlv⟩
                  · exact ⟨Or.inr hx, hnv⟩
                · rintro ⟨(rfl | hx), hnv⟩
                  · exact Or.inl rfl
                  · exact Or.inr ⟨hx, hnv⟩
            · have hn1 : ¬(a = b ∧ l ∉ v) := fun hc => hab hc.1
              have hn2 : ¬(a = b ∧ l ∉ ([] : List String)) := fun hc => hab hc.1
              rw [if_neg hn1, if_neg hn2]
              exact ih h3 h4

theorem sameOriginNewReplicate {su l : String} {v : List String} {hst : String}
    (h1 : hostname l = some hst) (h2 : hostname su = some hst) (hlv : l ∉ v) :
    ∀ n, sameOriginNew su v (List.replicate n l) = some (List.replicate n l) := by
  intro n
  induction n with
  | zero => rfl
  | succ m ih =>
    rw [List.replicate_succ]
    simp only [sameOriginNew]
    rw [h1, h2, ih]
    show some (if hst = hst ∧ l ∉ v then l :: List.replicate m l else List.replicate m l) =
      some (l :: List.replicate m l)
    rw [if_pos ⟨rfl, hlv⟩]

/-! ### pageNewLinks and runChunk lemmas -/

theorem pageNewLinksFail {net : String → Option (List String)} {su u : String}
    (v : List String) (h : net u = none) : pageNewLinks net su u v = [] := by
  unfold pageNewLinks
  rw [h]

theorem pageNewLinksLen {net : String → Option (List String)} {K : Nat}
    (hK : ∀ u0 ls, net u0 = some ls → ls.length ≤ K) (su u : String) (v : List String) :
    (pageNewLinks net su u v).length ≤ K := by
  unfold pageNewLinks
  split
  · simp
  · next hrefs hn =>
    split
    · simp
    · next nl hs =>
      have h1 := sameOriginNewLen hs
      have h2 : (hrefs.filterMap fun h => normalizeURL h u).length ≤ hrefs.length :=
        List.length_filterMap_le _ _
      have h3 := hK u hrefs hn
      omega

theorem pageNewLinksMemHost {net : String → Option (List String)} {su u : String}
    {v : List String} {x : String} (hx : x ∈ pageNewLinks net su u v) :
    ∃ hst, hostname x = some hst ∧ hostname su = some hst := by
  unfold pageNewLinks at hx
  split at hx
  · cases hx
  · split at hx
    · cases hx
    · next nl hs => exact (sameOriginNewMem hs hx).1

theorem memPageNewLinksIff {net : String → Option (List String)} {su u : String}
    {v : List String} {x : String} :
    x ∈ pageNewLinks net su u v ↔ x ∈ pageNewLinks net su u [] ∧ x ∉ v := by
  unfold pageNewLinks
  cases hn : net u with
  | none => simp
  | some hrefs =>
    simp only []
    cases hA : sameOriginNew su v (hrefs.filterMap fun h => normalizeURL h u) with
    | none =>
      rw [(sameOriginNewNoneIff su v _).1 hA]
      simp
    | some nl =>
      cases hB : sameOriginNew su [] (hrefs.filterMap fun h => normalizeURL h u) with
      | none => exact absurd ((sameOriginNewNoneIff su v _).2 hB) (by simp [hA])
      | some nl0 => exact sameOriginNewMemIff hA hB

theorem runChunkConsFst (net : String → Option (List String)) (su u : String)
    (us v : List String) :
    (runChunk net su (u :: us) v).1 =
      pageNewLinks net su u v ::
        (runChunk net su us ((pageNewLinks net su u v).foldl sInsert v)).1 := rfl

theorem runChunkConsSnd (net : String → Option (List String)) (su u : String)
    (us v : List String) :
    (runChunk net su (u :: us) v).2 =
      (runChunk net su us ((pageNewLinks net su u v).foldl sInsert v)).2 := rfl

theorem runChunkSndMem {net : String → Option (List String)} {su : String}
    {us v : List String} {x : String} :
    x ∈ (runChunk net su us v).2 ↔ x ∈ v ∨ ∃ u ∈ us, x ∈ pageNewLinks net su u [] := by
  induction us generalizing v with
  | nil => simp [runChunk]
  | cons u rest ih =>
    rw [runChunkConsSnd, ih, memFoldlSInsert, memPageNewLinksIff]
    simp only [List.mem_cons]
    constructor
    · rintro ((hv | ⟨hc, hnv⟩) | ⟨u1, hu1, hc1⟩)
      · exact Or.inl hv
      · exact Or.inr ⟨u, Or.inl rfl, hc⟩
      · exact Or.inr ⟨u1, Or.inr hu1, hc1⟩
    · rintro (hv | ⟨u1, (rfl | hu1), hc1⟩)
      · exact Or.inl (Or.inl hv)
      · by_cases hxv : x ∈ v
        · exact Or.inl (Or.inl hxv)
        · exact Or.inl (Or.inr ⟨hc1, hxv⟩)
      · exact Or.inr ⟨u1, hu1, hc1⟩

theorem runChunkSndSub {net : String → Option (List String)} {su : String}
    {us v : List String} {x : String} (hx : x ∈ v) : x ∈ (runChunk net su us v).2 :=
  runChunkSndMem.2 (Or.inl hx)

theorem runChunkSndHost {net : String → Option (List String)} {su : String}
    {us v : List String} {x : String} (hx : x ∈ (runChunk net su us v).2) :
    x ∈ v ∨ ∃ hst, hostname x = some hst ∧ hostname su = some hst := by
  rcases runChunkSndMem.1 hx with hv | ⟨u, _, hc⟩
  · exact Or.inl hv
  · exact Or.inr (pageNewLinksMemHost hc)

theorem runChunkSndLen {net : String → Option (List String)} {su : String} {K : Nat}
    (hK : ∀ u0 ls, net u0 = some ls → ls.length ≤ K) :
    ∀ (us v : List String), (runChunk net su us v).2.length ≤ v.length + us.length * K := by
  intro us
  induction us with
  | nil => simp [runChunk]
  | cons u rest ih =>
    intro v
    rw [runChunkConsSnd]
    have h1 := ih ((pageNewLinks net su u v).foldl sInsert v)
    have h2 := lengthFoldlSInsert (pageNewLinks net su u v) v
    have h3 := pageNewLinksLen hK su u v
    simp only [List.length_cons, Nat.succ_mul]
    omega

/-! ### batchLoop lemmas -/

theorem runChunkNil (net : String → Option (List String)) (su : String) (v : List String) :
    runChunk net su [] v = ([], v) := rfl

theorem batchLoopDone {net : String → Option (List String)} {su : String} {cl mp : Nat}
    {fuel i : Nat} {level v nl ftch : List String} (h : ¬ i < level.length) :
    batchLoop net su cl mp (fuel + 1) i level v nl ftch = some (v, nl, ftch) := by
  rw [batchLoop, if_neg h]

theorem batchLoopStop {net : String → Option (List String)} {su : String} {cl mp : Nat}
    {fuel i : Nat} {level v nl ftch : List String} (hi : i < level.length)
    (hmp : mp ≤ (runChunk net su ((level.drop i).take cl) v).2.length) :
    batchLoop net su cl mp (fuel + 1) i level v nl ftch =
      some ((runChunk net su ((level.drop i).take cl) v).2,
        nl ++ (runChunk net su ((level.drop i).take cl) v).1.flatten,
        ftch ++ (level.drop i).take cl) := by
  rw [batchLoop, if_pos hi, if_pos hmp]

theorem batchLoopGo {net : String → Option (List String)} {su : String} {cl mp : Nat}
    {fuel i : Nat} {level v nl ftch : List String} (hi : i < level.length)
    (hmp : ¬ mp ≤ (runChunk net su ((level.drop i).take cl) v).2.length) :
    batchLoop net su cl mp (fuel + 1) i level v nl ftch =
      batchLoop net su cl mp fuel (i + cl) level
        ((runChunk net su ((level.drop i).take cl) v).2)
        (nl ++ (runChunk net su ((level.drop i).take cl) v).1.flatten)
        (ftch ++ (level.drop i).take cl) := by
  rw [batchLoop, if_pos hi, if_neg hmp]

theorem batchLoopIsSome {net : String → Option (List String)} {su : String} {cl mp : Nat}
    (hcl : 1 ≤ cl) :
    ∀ fuel i (level v nl ftch : List String), level.length - i < fuel →
      (batchLoop net su cl mp fuel i level v nl ftch).isSome = true := by
  intro fuel
  induction fuel with
  | zero =>
    intro i level v nl ftch h
    omega
  | succ f ih =>
    intro i level v nl ftch h
    by_cases hi : i < level.length
    · by_cases hmp : mp ≤ (runChunk net su ((level.drop i).take cl) v).2.length
      · rw [batchLoopStop hi hmp]
        rfl
      · rw [batchLoopGo hi hmp]
        exact ih (i + cl) level _ _ _ (by omega)
    · rw [batchLoopDone hi]
      rfl

theorem batchLoopSub {net : String → Option (List String)} {su : String} {cl mp : Nat} :
    ∀ {fuel i : Nat} {level v nl ftch v1 nl1 ftch1 : List String},
      batchLoop net su cl mp fuel i level v nl ftch = some (v1, nl1, ftch1) →
      ∀ x ∈ v, x ∈ v1 := by
  intro fuel
  induction fuel with
  | zero => intro i level v nl ftch v1 nl1 ftch1 h; cases h
  | succ f ih =>
    intro i level v nl ftch v1 nl1 ftch1 h x hx
    by_cases hi : i < level.length
    · by_cases hmp : mp ≤ (runChunk net su ((level.drop i).take cl) v).2.length
      · rw [batchLoopStop hi hmp] at h
        simp only [Option.some.injEq, Prod.mk.injEq] at h
        obtain ⟨rfl, rfl, rfl⟩ := h
        exact runChunkSndSub hx
      · rw [batchLoopGo hi hmp] at h
        exact ih h x (runChunkSndSub hx)
    · rw [batchLoopDone hi] at h
      simp only [Option.some.injEq, Prod.mk.injEq] at h
      obtain ⟨rfl, rfl, rfl⟩ := h
      exact hx

theorem batchLoopHost {net : String → Option (List String)} {su : String} {cl mp : Nat} :
    ∀ {fuel i : Nat} {level v nl ftch v1 nl1 ftch1 : List String},
      batchLoop net su cl mp fuel i level v nl ftch = some (v1, nl1, ftch1) →
      ∀ x ∈ v1, x ∈ v ∨ ∃ hst, hostname x = some hst ∧ hostname su = some hst := by
  intro fuel
  induction fuel with
  | zero => intro i level v nl ftch v1 nl1 ftch1 h; cases h
  | succ f ih =>
    intro i level v nl ftch v1 nl1 ftch1 h x hx
    by_cases hi : i < level.length
    · by_cases hmp : mp ≤ (runChunk net su ((level.drop i).take cl) v).2.length
      · rw [batchLoopStop hi hmp] at h
        simp only [Option.some.injEq, Prod.mk.injEq] at h
        obtain ⟨rfl, rfl, rfl⟩ := h
        exact runChunkSndHost hx
      · rw [batchLoopGo hi hmp] at h
        rcases ih h x hx with hv | hh
        · exact runChunkSndHost hv
        · exact Or.inr hh
    · rw [batchLoopDone hi] at h
      simp only [Option.some.injEq, Prod.mk.injEq] at h
      obtain ⟨rfl, rfl, rfl⟩ := h
      exact Or.inl hx

theorem batchLoopLen {net : String → Option (List String)} {su : String} {cl mp K : Nat}
    (hK : ∀ u0 ls, net u0 = some ls → ls.length ≤ K) :
    ∀ {fuel i : Nat} {level v nl ftch v1 nl1 ftch1 : List String},
      batchLoop net su cl mp fuel i level v nl ftch = some (v1, nl1, ftch1) →
      v1.length ≤ max v.length (mp - 1) + cl * K := by
  intro fuel
  induction fuel with
  | zero => intro i level v nl ftch v1 nl1 ftch1 h; cases h
  | succ f ih =>
    intro i level v nl ftch v1 nl1 ftch1 h
    have hchunklen : ((level.drop i).take cl).length ≤ cl := by
      rw [List.length_take]
      exact Nat.min_le_left _ _
    have hrc := @runChunkSndLen net su K hK ((level.drop i).take cl) v
    have hmul : ((level.drop i).take cl).length * K ≤ cl * K :=
      Nat.mul_le_mul_right K hchunklen
    by_cases hi : i < level.length
    · by_cases hmp : mp ≤ (runChunk net su ((level.drop i).take cl) v).2.length
      · rw [batchLoopStop hi hmp] at h
        simp only [Option.some.injEq, Prod.mk.injEq] at h
        obtain ⟨rfl, rfl, rfl⟩ := h
        omega
      · rw [batchLoopGo hi hmp] at h
        have := ih h
        omega
    · rw [batchLoopDone hi] at h
      simp only [Option.some.injEq, Prod.mk.injEq] at h
      obtain ⟨rfl, rfl, rfl⟩ := h
      omega

theorem batchLoopZeroCl {net : String → Option (List String)} {su : String} {mp : Nat} :
    ∀ (fuel : Nat) {i : Nat} {level v nl ftch : List String}, i < level.length →
      v.length < mp → batchLoop net su 0 mp fuel i level v nl ftch = none := by
  intro fuel
  induction fuel with
  | zero => intros; rfl
  | succ f ih =>
    intro i level v nl ftch hi hv
    have hstep := @batchLoopGo net su 0 mp f i level v nl ftch hi (by
      rw [List.take_zero, runChunkNil]
      show ¬ mp ≤ v.length
      omega)
    rw [List.take_zero, runChunkNil] at hstep
    simp only [List.flatten_nil, List.append_nil, Nat.add_zero] at hstep
    rw [hstep]
    exact ih hi hv

theorem batchLoopSeedFail {net : String → Option (List String)} {su s : String} {cl mp : Nat}
    (hcl : 1 ≤ cl) (hnet : net s = none) (v nl ftch : List String) :
    ∀ fuel, 2 ≤ fuel →
      batchLoop net su cl mp fuel 0 [s] v nl ftch = some (v, nl, ftch ++ [s]) := by
  intro fuel hfuel
  rcases fuel with _ | fuel
  · omega
  rcases fuel with _ | fuel
  · omega
  have hchunk : (([s] : List String).drop 0).take cl = [s] := by
    rcases cl with _ | c
    · omega
    · simp
  have hrc : runChunk net su [s] v = ([[]], v) := by
    simp [runChunk, pageNewLinksFail v hnet]
  by_cases hmp : mp ≤ v.length
  · rw [batchLoopStop (by simp) (by rw [hchunk, hrc]; exact hmp)]
    rw [hchunk, hrc]
    simp
  · rw [batchLoopGo (by simp) (by rw [hchunk, hrc]; exact hmp)]
    rw [hchunk, hrc]
    simp only [List.flatten_cons, List.flatten_nil, List.append_nil]
    rw [batchLoopDone (by simp; omega)]

/-! ### crawlLoop lemmas -/

theorem crawlLoopZero (net : String → Option (List String)) (su : String) (cl mp : Nat)
    (level v : List String) (tr : List (List String)) :
    crawlLoop net su cl mp 0 level v tr = some (v, tr) := rfl

theorem crawlLoopSuccNone {net : String → Option (List String)} {su : String} {cl mp d : Nat}
    {level v : List String} {tr : List (List String)}
    (hb : batchLoop net su cl mp (level.length + 1) 0 level v [] [] = none) :
    crawlLoop net su cl mp (d + 1) level v tr = none := by
  rw [crawlLoop, hb]

theorem crawlLoopSuccStop {net : String → Option (List String)} {su : String} {cl mp d : Nat}
    {level v v1 nl ftch : List String} {tr : List (List String)}
    (hb : batchLoop net su cl mp (level.length + 1) 0 level v [] [] = some (v1, nl, ftch))
    (hstop : mp ≤ v1.length ∨ nl = []) :
    crawlLoop net su cl mp (d + 1) level v tr = some (v1, tr ++ [ftch]) := by
  rw [crawlLoop, hb]
  simp only []
  rw [if_pos hstop]

theorem crawlLoopSuccGo {net : String → Option (List String)} {su : String} {cl mp d : Nat}
    {level v v1 nl ftch : List String} {tr : List (List String)}
    (hb : batchLoop net su cl mp (level.length + 1) 0 level v [] [] = some (v1, nl, ftch))
    (hgo : ¬ (mp ≤ v1.length ∨ nl = [])) :
    crawlLoop net su cl mp (d + 1) level v tr =
      crawlLoop net su cl mp d nl v1 (tr ++ [ftch]) := by
  rw [crawlLoop, hb]
  simp only []
  rw [if_neg hgo]

theorem crawlLoopIsSome {net : String → Option (List String)} {su : String} {cl mp : Nat}
    (hcl : 1 ≤ cl) :
    ∀ (d : Nat) (level v : List String) (tr : List (List String)),
      (crawlLoop net su cl mp d level v tr).isSome = true := by
  intro d
  induction d with
  | zero => intro level v tr; rfl
  | succ d0 ih =>
    intro level v tr
    have hb := @batchLoopIsSome net su cl mp hcl (level.length + 1) 0 level v [] []
      (by omega)
    rcases hbe : batchLoop net su cl mp (level.length + 1) 0 level v [] [] with
      _ | ⟨v1, nl, ftch⟩
    · rw [hbe] at hb
      cases hb
    · by_cases hstop : mp ≤ v1.length ∨ nl = []
      · rw [crawlLoopSuccStop hbe hstop]
        rfl
      · rw [crawlLoopSuccGo hbe hstop]
        exact ih nl v1 (tr ++ [ftch])

theorem crawlLoopSub {net : String → Option (List String)} {su : String} {cl mp : Nat} :
    ∀ {d : Nat} {level v : List String} {tr : List (List String)} {v1 : List String}
      {tr1 : List (List String)},
      crawlLoop net su cl mp d level v tr = some (v1, tr1) → ∀ x ∈ v, x ∈ v1 := by
  intro d
  induction d with
  | zero =>
    intro level v tr v1 tr1 h x hx
    rw [crawlLoopZero] at h
    simp only [Option.some.injEq, Prod.mk.injEq] at h
    obtain ⟨rfl, rfl⟩ := h
    exact hx
  | succ d0 ih =>
    intro level v tr v1 tr1 h x hx
    rcases hbe : batchLoop net su cl mp (level.length + 1) 0 level v [] [] with
      _ | ⟨v2, nl, ftch⟩
    · rw [crawlLoopSuccNone hbe] at h
      cases h
    · by_cases hstop : mp ≤ v2.length ∨ nl = []
      · rw [crawlLoopSuccStop hbe hstop] at h
        simp only [Option.some.injEq, Prod.mk.injEq] at h
        obtain ⟨rfl, rfl⟩ := h
        exact batchLoopSub hbe x hx
      · rw [crawlLoopSuccGo hbe hstop] at h
        exact ih h x (batchLoopSub hbe x hx)

theorem crawlLoopHost {net : String → Option (List String)} {su : String} {cl mp : Nat} :
    ∀ {d : Nat} {level v : List String} {tr : List (List String)} {v1 : List String}
      {tr1 : List (List String)},
      crawlLoop net su cl mp d level v tr = some (v1, tr1) →
      ∀ x ∈ v1, x ∈ v ∨ ∃ hst, hostname x = some hst ∧ hostname su = some hst := by
  intro d
  induction d with
  | zero =>
    intro level v tr v1 tr1 h x hx
    rw [crawlLoopZero] at h
    simp only [Option.some.injEq, Prod.mk.injEq] at h
    obtain ⟨rfl, rfl⟩ := h
    exact Or.inl hx
  | succ d0 ih =>
    intro level v tr v1 tr1 h x hx
    rcases hbe : batchLoop net su cl mp (level.length + 1) 0 level v [] [] with
      _ | ⟨v2, nl, ftch⟩
    · rw [crawlLoopSuccNone hbe] at h
      cases h
    · by_cases hstop : mp ≤ v2.length ∨ nl = []
      · rw [crawlLoopSuccStop hbe hstop] at h
        simp only [Option.some.injEq, Prod.mk.injEq] at h
        obtain ⟨rfl, rfl⟩ := h
        exact batchLoopHost hbe x hx
      · rw [crawlLoopSuccGo hbe hstop] at h
        rcases ih h x hx with hv2 | hh
        · exact batchLoopHost hbe x hv2
        · exact Or.inr hh

theorem crawlLoopLen {net : String → Option (List String)} {su : String} {cl mp K : Nat}
    (hK : ∀ u0 ls, net u0 = some ls → ls.length ≤ K) :
    ∀ {d : Nat} {level v : List String} {tr : List (List String)} {v1 : List String}
      {tr1 : List (List String)},
      crawlLoop net su cl mp d level v tr = some (v1, tr1) →
      v1.length ≤ max v.length (mp - 1) + cl * K := by
  intro d
  induction d with
  | zero =>
    intro level v tr v1 tr1 h
    rw [crawlLoopZero] at h
    simp only [Option.some.injEq, Prod.mk.injEq] at h
    obtain ⟨rfl, rfl⟩ := h
    omega
  | succ d0 ih =>
    intro level v tr v1 tr1 h
    rcases hbe : batchLoop net su cl mp (level.length + 1) 0 level v [] [] with
      _ | ⟨v2, nl, ftch⟩
    · rw [crawlLoopSuccNone hbe] at h
      cases h
    · have hlen2 := batchLoopLen hK hbe
      by_cases hstop : mp ≤ v2.length ∨ nl = []
      · rw [crawlLoopSuccStop hbe hstop] at h
        simp only [Option.some.injEq, Prod.mk.injEq] at h
        obtain ⟨rfl, rfl⟩ := h
        exact hlen2
      · rw [crawlLoopSuccGo hbe hstop] at h
        have h2 := ih h
        rw [not_or] at hstop
        have hv2 : v2.length < mp := by omega
        omega

theorem crawlLoopTraceLen {net : String → Option (List String)} {su : String} {cl mp : Nat} :
    ∀ {d : Nat} {level v : List String} {tr : List (List String)} {v1 : List String}
      {tr1 : List (List String)},
      crawlLoop net su cl mp d level v tr = some (v1, tr1) →
      tr1.length ≤ tr.length + d := by
  intro d
  induction d with
  | zero =>
    intro level v tr v1 tr1 h
    rw [crawlLoopZero] at h
    simp only [Option.some.injEq, Prod.mk.injEq] at h
    obtain ⟨rfl, rfl⟩ := h
    omega
  | succ d0 ih =>
    intro level v tr v1 tr1 h
    rcases hbe : batchLoop net su cl mp (level.length + 1) 0 level v [] [] with
      _ | ⟨v2, nl, ftch⟩
    · rw [crawlLoopSuccNone hbe] at h
      cases h
    · by_cases hstop : mp ≤ v2.length ∨ nl = []
      · rw [crawlLoopSuccStop hbe hstop] at h
        simp only [Option.some.injEq, Prod.mk.injEq] at h
        obtain ⟨rfl, rfl⟩ := h
        simp only [List.length_append, List.length_cons, List.length_nil]
        omega
      · rw [crawlLoopSuccGo hbe hstop] at h
        have h2 := ih h
        simp only [List.length_append, List.length_cons, List.length_nil] at h2
        omega

theorem crawlLoopSeedFail {net : String → Option (List String)} {su s : String} {cl mp : Nat}
    (hcl : 1 ≤ cl) (hnet : net s = none) (d : Nat) (v : List String)
    (tr : List (List String)) :
    crawlLoop net su cl mp (d + 1) [s] v tr = some (v, tr ++ [[s]]) := by
  have hb := @batchLoopSeedFail net su s cl mp hcl hnet v ([] : List String)
    ([] : List String) (([s] : List String).length + 1) (by simp)
  simp only [List.nil_append] at hb
  exact crawlLoopSuccStop hb (Or.inr rfl)

/-! ### Duplicate-link scenario lemmas -/

theorem filterMapReplicate {α β : Type} {f : α → Option β} {a : α} {b : β}
    (h : f a = some b) : ∀ n, (List.replicate n a).filterMap f = List.replicate n b := by
  intro n
  induction n with
  | zero => rfl
  | succ m ih =>
    rw [List.replicate_succ, List.replicate_succ, List.filterMap_cons, h, ih]

theorem sInsertIdem (v : List String) (l : String) :
    sInsert (sInsert v l) l = sInsert v l := by
  have hmem : l ∈ sInsert v l := memSInsert.2 (Or.inr rfl)
  show (if l ∈ sInsert v l then sInsert v l else sInsert v l ++ [l]) = sInsert v l
  rw [if_pos hmem]

theorem foldlSInsertReplicate {l : String} :
    ∀ (n : Nat) (v : List String), 1 ≤ n →
      (List.replicate n l).foldl sInsert v = sInsert v l := by
  intro n
  induction n with
  | zero => intro v h; omega
  | succ m ih =>
    intro v _
    rw [List.replicate_succ, List.foldl_cons]
    rcases Nat.eq_zero_or_pos m with rfl | hm
    · rfl
    · rw [ih (sInsert v l) hm, sInsertIdem]

theorem batchLoopReplicateEmpty {net : String → Option (List String)} {su x : String}
    {mp : Nat} (hpage : ∀ w, pageNewLinks net su x w = []) :
    ∀ (fuel : Nat) {i n : Nat} {v nl ftch : List String}, v.length < mp → n - i < fuel →
      batchLoop net su 1 mp fuel i (List.replicate n x) v nl ftch =
        some (v, nl, ftch ++ List.replicate (n - i) x) := by
  intro fuel
  induction fuel with
  | zero => intro i n v nl ftch hv h; omega
  | succ f ih =>
    intro i n v nl ftch hv h
    by_cases hi : i < (List.replicate n x).length
    · have hin : i < n := by simpa using hi
      have hchunk : (((List.replicate n x).drop i).take 1) = [x] := by
        rw [List.drop_replicate]
        have : n - i = (n - i - 1) + 1 := by omega
        rw [this, List.replicate_succ, List.take_succ_cons, List.take_zero]
      have hrc : runChunk net su [x] v = ([[]], v) := by
        simp [runChunk, hpage v]
      rw [batchLoopGo hi (by rw [hchunk, hrc]; show ¬ mp ≤ v.length; omega)]
      rw [hchunk, hrc]
      simp only [List.flatten_cons, List.flatten_nil, List.append_nil]
      rw [ih hv (by omega)]
      have hrep : List.replicate (n - i) x = x :: List.replicate (n - (i + 1)) x := by
        have : n - i = (n - (i + 1)) + 1 := by omega
        rw [this, List.replicate_succ]
      rw [hrep, List.append_assoc]
      rfl
    · have hin : ¬ i < n := by simpa using hi
      rw [batchLoopDone hi]
      have : n - i = 0 := by omega
      rw [this]
      simp

theorem dupLinksPage (n : Nat) :
    ∀ w, pageNewLinks (oracleDupLinks n) "http://a.com/" "http://a.com/p1" w = [] := by
  intro w
  unfold pageNewLinks oracleDupLinks
  rw [if_neg (by decide), if_pos rfl]
  rfl

theorem dupLinksSeedPage (n : Nat) :
    pageNewLinks (oracleDupLinks n) "http://a.com/" "http://a.com/" ["http://a.com/"] =
      List.replicate n "http://a.com/p1" := by
  have hnet1 : oracleDupLinks n "http://a.com/" = some (List.replicate n "/p1") := by
    unfold oracleDupLinks
    rw [if_pos rfl]
  unfold pageNewLinks
  rw [hnet1]
  simp only []
  rw [@filterMapReplicate String String (fun h => normalizeURL h "http://a.com/") "/p1"
    "http://a.com/p1" rfl n]
  rw [sameOriginNewReplicate (show hostname "http://a.com/p1" = some "a.com" from rfl)
    (show hostname "http://a.com/" = some "a.com" from rfl) (by decide) n]

theorem dupLinksRunChunk {n : Nat} (hn : 1 ≤ n) :
    runChunk (oracleDupLinks n) "http://a.com/" ["http://a.com/"] ["http://a.com/"] =
      ([List.replicate n "http://a.com/p1"], ["http://a.com/", "http://a.com/p1"]) := by
  have hfold : (List.replicate n "http://a.com/p1").foldl sInsert ["http://a.com/"] =
      ["http://a.com/", "http://a.com/p1"] := by
    rw [foldlSInsertReplicate n ["http://a.com/"] hn]
    show (if "http://a.com/p1" ∈ ["http://a.com/"] then ["http://a.com/"]
      else ["http://a.com/"] ++ ["http://a.com/p1"]) = _
    rw [if_neg (by decide)]
    rfl
  refine Prod.ext ?_ ?_
  · rw [runChunkConsFst, dupLinksSeedPage n, hfold, runChunkNil]
  · rw [runChunkConsSnd, dupLinksSeedPage n, hfold, runChunkNil]

theorem dupLinksLevel0 {n : Nat} (hn : 1 ≤ n) :
    batchLoop (oracleDupLinks n) "http://a.com/" 1 100 2 0 ["http://a.com/"]
      ["http://a.com/"] [] [] =
    some (["http://a.com/", "http://a.com/p1"],
      List.replicate n "http://a.com/p1", ["http://a.com/"]) := by
  have hchunk : (((["http://a.com/"] : List String).drop 0).take 1) = ["http://a.com/"] := rfl
  rw [batchLoopGo (by decide) (by
    rw [hchunk, dupLinksRunChunk hn]
    show ¬ (100 ≤ (["http://a.com/", "http://a.com/p1"] : List String).length)
    decide)]
  rw [hchunk, dupLinksRunChunk hn]
  simp only [List.flatten_cons, List.flatten_nil, List.append_nil, List.nil_append]
  rw [batchLoopDone (by decide)]

/-! ### Shared top-level crawl facts -/

theorem crawlSeedFailEq {net : String → Option (List String)} {s : String} {d cl mp : Nat}
    (hcl : 1 ≤ cl) (hnet : net s = none) :
    crawlWebsite net s d cl mp = some ([s], if d = 0 then [] else [[s]]) := by
  unfold crawlWebsite
  cases d with
  | zero =>
    rw [crawlLoopZero]
    simp
  | succ d0 =>
    rw [crawlLoopSeedFail hcl hnet d0 [s] []]
    simp

/-! ### Claim theorems -/

/-- C1 counterexample: with `maxPages = 1` the crawl of a seed whose page
contains one same-origin link returns a two-element set: the `maxPages`
check at `src/app.js:96` runs only after the batch's results (including the
`visited.add` calls at line 84) are in, so `|result| ≤ maxPages` fails and
the result is not `{seed}`. -/
theorem c1_counterexample :
    crawlWebsite oracleOneLink "http://a.com/" 1 1 1 =
      some (["http://a.com/", "http://a.com/p1"], [["http://a.com/"]]) ∧
    ¬ ((["http://a.com/", "http://a.com/p1"] : List String).length ≤ 1) :=
  ⟨rfl, by decide⟩

/-- C1 (amended): the `maxPages` check is applied only at batch boundaries,
so the batch that crosses the threshold may overshoot; whenever every
fetched page yields at most `K` hrefs, the returned set has size at most
`max 1 (maxPages - 1) + concurrencyLimit * K`; with `maxPages = 1` the
result is `{seed}` only when the seed's page contributes no new links. -/
theorem c1_amended (net : String → Option (List String)) (s : String) (d cl mp K : Nat)
    (hK : ∀ u0 ls, net u0 = some ls → ls.length ≤ K) (v : List String)
    (tr : List (List String)) (h : crawlWebsite net s d cl mp = some (v, tr)) :
    v.length ≤ max 1 (mp - 1) + cl * K := by
  unfold crawlWebsite at h
  have := crawlLoopLen hK h
  simpa using this

/-- Witness for C1 (amended) at a concrete all-failing oracle. -/
theorem c1_amended_witness :
    (["http://a.com/"] : List String).length ≤ max 1 (5 - 1) + 1 * 0 :=
  c1_amended (fun _ => none) "http://a.com/" 1 1 5 0 (fun u0 ls h => by cases h)
    ["http://a.com/"] [["http://a.com/"]] rfl

/-- C2 counterexample: two pages of one batch both link to `/x`; the chunk
results actually computed (each fulfilment handler filters against the
visited set as already mutated by earlier handlers, `src/app.js:80-84`)
differ from the spec's filter-against-the-prior-state results:
`[[x], []]` versus `[[x], [x]]`. -/
theorem c2_counterexample :
    (runChunk oracleSharedLink "http://a.com/" ["http://a.com/1", "http://a.com/2"]
      ["http://a.com/"]).1 ≠
    chunkResultsPriorFilter oracleSharedLink "http://a.com/"
      ["http://a.com/1", "http://a.com/2"] ["http://a.com/"] := by
  decide

/-- C2 (amended): candidates are inserted into the visited set as each
fetch's handler runs, not at the batch join, so a later-completing fetch
filters against a state that already contains earlier completions'
insertions; nevertheless the membership of the visited set after the batch
is the same for every completion order of the chunk. -/
theorem c2_amended (net : String → Option (List String)) (su : String) (v : List String)
    (exec chunk : List String) (hperm : exec.Perm chunk) (x : String) :
    x ∈ (runChunk net su exec v).2 ↔ x ∈ (runChunk net su chunk v).2 := by
  rw [runChunkSndMem, runChunkSndMem]
  constructor
  · rintro (hv | ⟨u, hu, hc⟩)
    · exact Or.inl hv
    · exact Or.inr ⟨u, hperm.subset hu, hc⟩
  · rintro (hv | ⟨u, hu, hc⟩)
    · exact Or.inl hv
    · exact Or.inr ⟨u, hperm.symm.subset hu, hc⟩

/-- Witness for C2 (amended) at the two completion orders of a two-element
chunk. -/
theorem c2_amended_witness :
    ("http://a.com/x" ∈ (runChunk oracleSharedLink "http://a.com/"
        ["http://a.com/2", "http://a.com/1"] ["http://a.com/"]).2) ↔
    ("http://a.com/x" ∈ (runChunk oracleSharedLink "http://a.com/"
        ["http://a.com/1", "http://a.com/2"] ["http://a.com/"]).2) :=
  c2_amended oracleSharedLink "http://a.com/" ["http://a.com/"]
    ["http://a.com/2", "http://a.com/1"] ["http://a.com/1", "http://a.com/2"]
    (List.Perm.swap "http://a.com/1" "http://a.com/2" []) "http://a.com/x"

/-- C3 counterexample: for the unparsable seed `notaurl` (its fetch fails),
`crawlWebsite` returns normally with `{seed}` — no explicit error result is
signalled to the caller (the rejection is absorbed by the `.catch` at
`src/app.js:87-90`). -/
theorem c3_counterexample :
    hostname "notaurl" = none ∧
    crawlWebsite (fun _ => none) "notaurl" 2 10 100 = some (["notaurl"], [["notaurl"]]) :=
  ⟨rfl, rfl⟩

/-- C3 (amended): crawl never signals an error to the caller: for every seed
whose fetch fails — in particular an unparsable seed — it returns normally
with exactly `{seed}` (given `concurrencyLimit ≥ 1`); there is no input for
which crawl returns an error result. -/
theorem c3_amended (net : String → Option (List String)) (s : String) (d cl mp : Nat)
    (hcl : 1 ≤ cl) (hnet : net s = none) :
    crawlWebsite net s d cl mp = some ([s], if d = 0 then [] else [[s]]) :=
  crawlSeedFailEq hcl hnet

/-- Witness for C3 (amended) at the unparsable seed `notaurl`. -/
theorem c3_amended_witness :
    crawlWebsite (fun _ => none) "notaurl" 1 1 100 =
      some (["notaurl"], if 1 = 0 then [] else [["notaurl"]]) :=
  c3_amended (fun _ => none) "notaurl" 1 1 100 (by decide) rfl

/-- C4: a failed fetch contributes zero links and aborts nothing: for every
oracle the returned set contains the seed, and with every fetch failing the
crawl still terminates normally, returning exactly `{seed}` after fetching
the seed once (never retrying it). -/
theorem c4_failed_fetches (s : String) (d cl mp : Nat) :
    (∀ (net : String → Option (List String)) (v : List String) (tr : List (List String)),
        crawlWebsite net s d cl mp = some (v, tr) → s ∈ v) ∧
    (1 ≤ cl → crawlWebsite (fun _ => none) s d cl mp =
        some ([s], if d = 0 then [] else [[s]])) := by
  constructor
  · intro net v tr h
    unfold crawlWebsite at h
    exact crawlLoopSub h s (by simp)
  · intro hcl
    exact crawlSeedFailEq hcl rfl

/-- Witness for C4 at a concrete all-failing oracle. -/
theorem c4_witness :
    "http://a.com/" ∈ (["http://a.com/"] : List String) ∧
    crawlWebsite (fun _ => none) "http://a.com/" 2 3 7 =
      some (["http://a.com/"], if 2 = 0 then [] else [["http://a.com/"]]) :=
  ⟨(c4_failed_fetches "http://a.com/" 2 3 7).1 (fun _ => none) ["http://a.com/"]
      [["http://a.com/"]] rfl,
    (c4_failed_fetches "http://a.com/" 2 3 7).2 (by decide)⟩

/-- C5: the number of levels of fetches is at most `maxDepth`, and with
`maxDepth = 0` the crawl returns exactly `{seed}` with an empty fetch
trace — no fetch at all occurs. -/
theorem c5_depth_bound (s : String) (d cl mp : Nat) :
    (∀ (net : String → Option (List String)) (v : List String) (tr : List (List String)),
        crawlWebsite net s d cl mp = some (v, tr) → tr.length ≤ d) ∧
    (∀ net : String → Option (List String),
        crawlWebsite net s 0 cl mp = some ([s], [])) := by
  constructor
  · intro net v tr h
    unfold crawlWebsite at h
    simpa using crawlLoopTraceLen h
  · intro net
    rfl

/-- Witness for C5 at a depth-1 crawl and a depth-0 crawl. -/
theorem c5_witness :
    ([["http://a.com/"]] : List (List String)).length ≤ 1 ∧
    crawlWebsite (fun _ => none) "http://a.com/" 0 1 100 = some (["http://a.com/"], []) :=
  ⟨(c5_depth_bound "http://a.com/" 1 1 100).1 (fun _ => none) ["http://a.com/"]
      [["http://a.com/"]] rfl,
    (c5_depth_bound "http://a.com/" 0 1 100).2 (fun _ => none)⟩

/-- C6: every URL in the returned set other than the seed has a hostname
byte-equal to the seed's hostname (the filter at `src/app.js:81` compares
`new URL(link).hostname === new URL(startUrl).hostname`); hence a
cross-host link never appears in the result. -/
theorem c6_same_origin (net : String → Option (List String)) (s : String) (d cl mp : Nat)
    (v : List String) (tr : List (List String))
    (h : crawlWebsite net s d cl mp = some (v, tr)) :
    ∀ x ∈ v, x ≠ s → ∃ hst, hostname x = some hst ∧ hostname s = some hst := by
  intro x hx hne
  unfold crawlWebsite at h
  rcases crawlLoopHost h x hx with hv | hh
  · simp at hv
    exact absurd hv hne
  · exact hh

/-- Witness for C6: the crawl of a seed whose page links to `/p1` and to
the cross-host `http://b.com/x` returns only the same-host page, whose
hostname byte-equals the seed's. -/
theorem c6_witness :
    ∃ hst, hostname "http://a.com/p1" = some hst ∧ hostname "http://a.com/" = some hst := by
  refine c6_same_origin oracleCrossHost "http://a.com/" 1 1 100
    ["http://a.com/", "http://a.com/p1"] [["http://a.com/"]] rfl "http://a.com/p1"
    (by decide) (by decide)

/-- C7: URL normalisation is idempotent: when `normalizeURL x b = some y`,
normalising `y` against the same base returns `y` again. -/
theorem c7_normalize_idempotent (x b y : String) (h : normalizeURL x b = some y) :
    normalizeURL y b = some y := by
  unfold normalizeURL at h
  rcases hres : resolveL x.data b.data with _ | u
  · rw [hres] at h
    cases h
  · rw [hres] at h
    simp only [Option.map_some', Option.some.injEq] at h
    subst h
    have hwf : u.wf := resolveLWf hres
    unfold normalizeURL
    have hdata : (String.mk (serializeL u)).data = serializeL u := rfl
    rw [hdata, resolveSer hwf]
    rfl

/-- Witness for C7 at a relative reference with dot segments, query and
fragment. -/
theorem c7_witness :
    normalizeURL "http://a.com/up?q#f" "http://a.com/x/y" = some "http://a.com/up?q#f" :=
  c7_normalize_idempotent "../up?q#f" "http://a.com/x/y" "http://a.com/up?q#f" rfl

/-- C8: with `concurrencyLimit ≥ 1` the crawl always terminates in finite
time: both loops finish within the fuel budgets and a result is returned
(`isSome`), for every seed, depth, page budget and finite-links oracle. -/
theorem c8_termination (net : String → Option (List String)) (s : String) (d cl mp : Nat)
    (hcl : 1 ≤ cl) : (crawlWebsite net s d cl mp).isSome = true := by
  unfold crawlWebsite
  exact crawlLoopIsSome hcl d [s] [s] []

/-- Witness for C8 at a concrete oracle and limits. -/
theorem c8_witness : (crawlWebsite (fun _ => none) "http://a.com/" 3 2 50).isSome = true :=
  c8_termination (fun _ => none) "http://a.com/" 3 2 50 (by decide)

/-- C9: when the seed's page contains `n ≥ 1` occurrences of the same
same-origin unvisited link, all `n` occurrences pass the visited filter
(the page's `filter` completes before its `forEach` inserts), the
next-level frontier holds the URL `n` times, it is fetched once per
occurrence at the next level, and the returned set contains it exactly
once. -/
theorem c9_duplicate_links (n : Nat) (hn : 1 ≤ n) :
    crawlWebsite (oracleDupLinks n) "http://a.com/" 2 1 100 =
      some (["http://a.com/", "http://a.com/p1"],
        [["http://a.com/"], List.replicate n "http://a.com/p1"]) := by
  unfold crawlWebsite
  have hb0 := dupLinksLevel0 hn
  have hrepne : List.replicate n "http://a.com/p1" ≠ [] := by
    intro hc
    have := congrArg List.length hc
    simp at this
    omega
  rw [crawlLoopSuccGo hb0 (by
    rintro (h | h)
    · exact absurd h (by decide)
    · exact hrepne h)]
  have hb1 := @batchLoopReplicateEmpty (oracleDupLinks n) "http://a.com/" "http://a.com/p1"
    100 (dupLinksPage n) ((List.replicate n "http://a.com/p1").length + 1) 0 n
    ["http://a.com/", "http://a.com/p1"] [] [] (by decide) (by simp)
  simp only [List.nil_append, Nat.sub_zero] at hb1
  rw [crawlLoopSuccStop hb1 (Or.inr rfl)]
  rfl

/-- Witness for C9 at `n = 2`. -/
theorem c9_witness :
    crawlWebsite (oracleDupLinks 2) "http://a.com/" 2 1 100 =
      some (["http://a.com/", "http://a.com/p1"],
        [["http://a.com/"], List.replicate 2 "http://a.com/p1"]) :=
  c9_duplicate_links 2 (by decide)

/-- C10: with `concurrencyLimit = 0`, a non-empty current level and
`|visited| < maxPages`, the inner chunking loop never advances (`i += 0`
with an empty chunk): it yields no result under any fuel bound, and the
whole crawl never terminates. -/
theorem c10_zero_concurrency (net : String → Option (List String)) (su : String) (mp : Nat) :
    (∀ (i : Nat) (level v nl ftch : List String), i < level.length → v.length < mp →
        ∀ fuel, batchLoop net su 0 mp fuel i level v nl ftch = none) ∧
    (∀ (s : String) (d : Nat), 1 ≤ d → 2 ≤ mp →
        crawlWebsite net s d 0 mp = none) := by
  constructor
  · intro i level v nl ftch hi hv fuel
    exact batchLoopZeroCl fuel hi hv
  · intro s d hd hmp
    unfold crawlWebsite
    rcases d with _ | d0
    · omega
    · exact crawlLoopSuccNone (batchLoopZeroCl _ (by simp) (by simp; omega))

/-- Witness for C10 at a concrete state and fuel. -/
theorem c10_witness :
    batchLoop (fun _ => none) "http://a.com/" 0 2 5 0 ["http://a.com/"] ["http://a.com/"]
      [] [] = none ∧
    crawlWebsite (fun _ => none) "http://a.com/" 1 0 2 = none :=
  ⟨(c10_zero_concurrency (fun _ => none) "http://a.com/" 2).1 0 ["http://a.com/"]
      ["http://a.com/"] [] [] (by decide) (by decide) 5,
    (c10_zero_concurrency (fun _ => none) "http://a.com/" 2).2 "http://a.com/" 1
      (by decide) (by decide)⟩
